import Mathlib

/-!
Verification of the staging/merge core of the LDP ETL pipeline
(src/merge.cpp of this repository).

The development shallowly embeds the data model and the operations of the
source:

* the Merge Engine (`mergeTable` in merge.cpp, two SQL statements) is
  embedded as relational semantics over lists of rows;
* the JSON processing pass (`processJSONRecord`, `NameComparator`) over a
  JSON document model;
* the Row Encoder (`writeTuple`) and the Staging Driver flushing logic
  (`JSONHandler::EndObject` / `EndArray`).

External collaborators that are not part of the repository sources
(the identifier-mapping service, the anonymization policy predicate,
the database type driver's string-constant encoder, the rapidjson
pretty/compact writers) are modelled from the specification, as noted
in the corresponding doc comments.
-/

/-! ## Merge Engine data model

A row of a history table: columns (id, data, updated, tenant_id) as used by
`mergeTable` in merge.cpp.  `data` is nullable (`Option`), `updated` is a
timestamp modelled as a natural number, `tenant_id` is a SMALLINT modelled
as an integer. -/

structure HistoryRow where
  id : String
  data : Option String
  updated : Nat
  tenant_id : Int
  deriving DecidableEq, Repr

/-- A row of a loading (staging) table: columns (id, data, tenant_id) as
selected by the merge INSERT statement in merge.cpp. -/
structure LoadingRow where
  id : String
  data : Option String
  tenant_id : Int
  deriving DecidableEq, Repr

/-- The join condition of the merge statements in merge.cpp:
`s.tenant_id = h.tenant_id AND s.id = h.id`. -/
def keyMatch (s : LoadingRow) (h : HistoryRow) : Bool :=
  s.tenant_id == h.tenant_id && s.id == h.id

/-- First merge statement (merge.cpp lines 18-32): the latest-history
snapshot.  `SELECT id, data, tenant_id FROM history h1 WHERE NOT EXISTS
(SELECT 1 FROM history h2 WHERE h1.tenant_id = h2.tenant_id AND
h1.id = h2.id AND h1.updated < h2.updated)`. -/
def latestHistory (hist : List HistoryRow) : List HistoryRow :=
  hist.filter (fun h1 =>
    ! hist.any (fun h2 =>
      h1.tenant_id == h2.tenant_id && h1.id == h2.id &&
      decide (h1.updated < h2.updated)))

/-- SQL text inequality `(a)::VARCHAR <> (b)::VARCHAR` under SQL
three-valued logic: a comparison involving NULL is not true, so the WHERE
clause treats it as false. -/
def sqlTextNeq (a b : Option String) : Bool :=
  match a, b with
  | some x, some y => x != y
  | _, _ => false

/-- The `LEFT JOIN` of the merge INSERT statement: for a staged row `s`,
the join rows against the latest-history snapshot; a staged row with no
key match yields one null-extended row. -/
def leftJoinRow (latest : List HistoryRow) (s : LoadingRow) :
    List (Option HistoryRow) :=
  match latest.filter (keyMatch s) with
  | [] => [none]
  | ms => ms.map some

/-- The WHERE clause of the merge INSERT statement (merge.cpp lines 49-51):
`s.data IS NOT NULL AND (h.id IS NULL OR (s.data)::VARCHAR <>
(h.data)::VARCHAR)`.  `h.id IS NULL` holds exactly on the null-extended
join row. -/
def mergeWhere (s : LoadingRow) : Option HistoryRow → Bool
  | none => s.data.isSome
  | some h => s.data.isSome && sqlTextNeq s.data h.data

/-- The rows appended by the second merge statement (merge.cpp lines
37-53): `INSERT INTO history (id, data, updated, tenant_id) SELECT s.id,
s.data, current_timestamp, s.tenant_id FROM loading s LEFT JOIN latest h
ON ... WHERE ...`.  `now` is the current database timestamp. -/
def mergeInsertRows (hist : List HistoryRow) (loading : List LoadingRow)
    (now : Nat) : List HistoryRow :=
  let latest := latestHistory hist
  loading.flatMap fun s =>
    ((leftJoinRow latest s).filter (mergeWhere s)).map fun _ =>
      { id := s.id, data := s.data, updated := now, tenant_id := s.tenant_id }

/-- The full effect of `mergeTable` (merge.cpp lines 7-54) on the history
table: the INSERT appends the selected rows to the history table. -/
def mergeTable (hist : List HistoryRow) (loading : List LoadingRow)
    (now : Nat) : List HistoryRow :=
  hist ++ mergeInsertRows hist loading now

/-! ### Merge Engine lemmas -/

theorem mem_latestHistory (hist : List HistoryRow) (h : HistoryRow) :
    h ∈ latestHistory hist ↔
      h ∈ hist ∧ ∀ h2 ∈ hist,
        (h2.tenant_id = h.tenant_id ∧ h2.id = h.id) →
          ¬ h.updated < h2.updated := by
  simp only [latestHistory, List.mem_filter, Bool.not_eq_eq_eq_not,
    Bool.not_true, List.any_eq_false, Bool.and_eq_false_imp]
  constructor
  · rintro ⟨hmem, hall⟩
    refine ⟨hmem, fun h2 h2mem hkey hlt => ?_⟩
    have := hall h2 h2mem
    simp only [Bool.and_eq_true, beq_iff_eq, decide_eq_true_eq] at this
    rcases hkey with ⟨hk1, hk2⟩
    simp only [hk1, hk2, and_true, true_and] at this
    exact absurd hlt (by simpa using this)
  · rintro ⟨hmem, hall⟩
    refine ⟨hmem, fun h2 h2mem => ?_⟩
    by_contra hcon
    simp only [Bool.not_eq_false, Bool.and_eq_true, beq_iff_eq,
      decide_eq_true_eq] at hcon
    exact hall h2 h2mem ⟨hcon.1.1.symm, hcon.1.2.symm⟩ hcon.2

theorem mem_mergeInsertRows (hist : List HistoryRow)
    (loading : List LoadingRow) (now : Nat) (r : HistoryRow) :
    r ∈ mergeInsertRows hist loading now ↔
      ∃ s ∈ loading, (∃ d, s.data = some d) ∧
        ((¬ ∃ h ∈ latestHistory hist, keyMatch s h = true) ∨
          (∃ h ∈ latestHistory hist, keyMatch s h = true ∧
            ∃ d d', s.data = some d ∧ h.data = some d' ∧ d ≠ d')) ∧
        r = { id := s.id, data := s.data, updated := now,
              tenant_id := s.tenant_id } := by
  simp only [mergeInsertRows, List.mem_flatMap, List.mem_map,
    List.mem_filter]
  constructor
  · rintro ⟨s, hs, h?, ⟨hjoin, hwhere⟩, hr⟩
    refine ⟨s, hs, ?_, ?_, hr.symm⟩
    · cases h? with
      | none =>
        simp only [mergeWhere, Option.isSome_iff_exists] at hwhere
        exact hwhere
      | some h =>
        simp only [mergeWhere, Bool.and_eq_true,
          Option.isSome_iff_exists] at hwhere
        exact hwhere.1
    · cases h? with
      | none =>
        left
        intro ⟨h, hmem, hk⟩
        unfold leftJoinRow at hjoin
        have hfe : (latestHistory hist).filter (keyMatch s) ≠ [] := by
          intro hemp
          have := List.mem_filter.mpr ⟨hmem, hk⟩
          rw [hemp] at this
          exact absurd this (List.not_mem_nil h)
        rcases hx : (latestHistory hist).filter (keyMatch s) with _ | ⟨a, l⟩
        · exact hfe hx
        · rw [hx] at hjoin
          simp at hjoin
      | some h =>
        right
        unfold leftJoinRow at hjoin
        rcases hx : (latestHistory hist).filter (keyMatch s) with _ | ⟨a, l⟩
        · rw [hx] at hjoin; simp at hjoin
        · rw [hx] at hjoin
          simp only [List.mem_map, Option.some.injEq] at hjoin
          rcases hjoin with ⟨h', hmem', heq⟩
          rw [← heq] at hwhere
          have hmf : h' ∈ (latestHistory hist).filter (keyMatch s) := by
            rw [hx]; exact hmem'
          rcases List.mem_filter.mp hmf with ⟨hlat, hk⟩
          simp only [mergeWhere, Bool.and_eq_true] at hwhere
          rcases hwhere with ⟨hsome, hneq⟩
          rcases Option.isSome_iff_exists.mp hsome with ⟨d, hd⟩
          unfold sqlTextNeq at hneq
          rw [hd] at hneq
          rcases hh : h'.data with _ | d'
          · rw [hh] at hneq; simp at hneq
          · rw [hh] at hneq
            simp only [bne_iff_ne, ne_eq] at hneq
            exact ⟨h', hlat, hk, d, d', hd, hh, hneq⟩
  · rintro ⟨s, hs, ⟨d, hd⟩, hcond, hr⟩
    refine ⟨s, hs, ?_⟩
    rcases hcond with hnone | ⟨h, hlat, hk, d1, d2, hd1, hd2, hne⟩
    · refine ⟨none, ⟨?_, ?_⟩, hr.symm⟩
      · unfold leftJoinRow
        rcases hx : (latestHistory hist).filter (keyMatch s) with _ | ⟨a, l⟩
        · simp
        · exfalso
          have : a ∈ (latestHistory hist).filter (keyMatch s) := by
            rw [hx]; simp
          rcases List.mem_filter.mp this with ⟨hmem, hk⟩
          exact hnone ⟨a, hmem, hk⟩
      · simp [mergeWhere, hd]
    · refine ⟨some h, ⟨?_, ?_⟩, hr.symm⟩
      · unfold leftJoinRow
        have hmf : h ∈ (latestHistory hist).filter (keyMatch s) :=
          List.mem_filter.mpr ⟨hlat, hk⟩
        rcases hx : (latestHistory hist).filter (keyMatch s) with _ | ⟨a, l⟩
        · rw [hx] at hmf; exact absurd hmf (List.not_mem_nil h)
        · rw [hx] at hmf
          exact List.mem_map.mpr ⟨h, hmf, rfl⟩
      · rw [hd1] at hd
        injection hd with hdd
        subst hdd
        simp [mergeWhere, hd1, sqlTextNeq, hd2]
        exact hne

/-- C1: The Merge Engine's two-statement protocol.  The first statement
materializes, per (tenant_id, id), exactly the history rows with no
strictly later row for the same key; the second appends exactly the staged
rows with non-null data whose key is absent from the snapshot or whose
data differs, as text, from the snapshot row's data, each appended row
carrying the current database timestamp. -/
theorem merge_protocol_correct (hist : List HistoryRow)
    (loading : List LoadingRow) (now : Nat) :
    (∀ h, h ∈ latestHistory hist ↔
      h ∈ hist ∧ ∀ h2 ∈ hist,
        (h2.tenant_id = h.tenant_id ∧ h2.id = h.id) →
          ¬ h.updated < h2.updated) ∧
    (∀ r, r ∈ mergeInsertRows hist loading now ↔
      ∃ s ∈ loading, (∃ d, s.data = some d) ∧
        ((¬ ∃ h ∈ latestHistory hist, keyMatch s h = true) ∨
          (∃ h ∈ latestHistory hist, keyMatch s h = true ∧
            ∃ d d', s.data = some d ∧ h.data = some d' ∧ d ≠ d')) ∧
        r = { id := s.id, data := s.data, updated := now,
              tenant_id := s.tenant_id }) ∧
    mergeTable hist loading now = hist ++ mergeInsertRows hist loading now :=
  ⟨mem_latestHistory hist, mem_mergeInsertRows hist loading now, rfl⟩

/-- C3: the Merge Engine is append-only: every pre-existing history row is
retained unchanged (the old table is a prefix of the new one, occurrence
counts never decrease), and the merge performs no update or delete. -/
theorem merge_append_only (hist : List HistoryRow)
    (loading : List LoadingRow) (now : Nat) :
    (mergeTable hist loading now).take hist.length = hist ∧
    (∀ r ∈ hist, r ∈ mergeTable hist loading now) ∧
    (∀ r, hist.count r ≤ (mergeTable hist loading now).count r) := by
  refine ⟨?_, ?_, ?_⟩
  · simp [mergeTable, List.take_append]
  · intro r hr
    simp [mergeTable, List.mem_append, hr]
  · intro r
    simp [mergeTable, List.count_append, Nat.le_add_right]

theorem keyMatch_iff (s : LoadingRow) (h : HistoryRow) :
    keyMatch s h = true ↔ s.tenant_id = h.tenant_id ∧ s.id = h.id := by
  simp [keyMatch]

/-- C2: idempotent merge.  If the first merge runs at a timestamp strictly
later than every existing history timestamp (the database clock advances)
and the loading table satisfies its UNIQUE (id) constraint (declared by
`createLoadingTable` in merge.cpp), then re-running the Merge Engine on the
unchanged loading table appends zero rows. -/
theorem merge_idempotent (hist : List HistoryRow) (loading : List LoadingRow)
    (now1 now2 : Nat)
    (hts : ∀ h ∈ hist, h.updated < now1)
    (hkeys : loading.Pairwise (fun a b => a.id ≠ b.id)) :
    mergeInsertRows (mergeTable hist loading now1) loading now2 = [] := by
  set app := mergeInsertRows hist loading now1 with happ
  have happmem := fun r => (mem_mergeInsertRows hist loading now1 r).mp
  have hist'eq : mergeTable hist loading now1 = hist ++ app := rfl
  rw [List.eq_nil_iff_forall_not_mem]
  intro r hr
  rw [hist'eq] at hr
  rcases (mem_mergeInsertRows (hist ++ app) loading now2 r).mp hr with
    ⟨s, hs, ⟨d, hd⟩, hcond, hreq⟩
  -- distinct-id helper: two loading rows with the same id are equal
  have hsame : ∀ s' ∈ loading, s'.id = s.id → s' = s := by
    intro s' hs' hid
    by_contra hne
    have hforall := List.Pairwise.forall
      (fun (a b : LoadingRow) (hab : a.id ≠ b.id) => hab.symm) hkeys
    exact hforall hs' hs hne hid
  by_cases hC : (¬ ∃ h ∈ latestHistory hist, keyMatch s h = true) ∨
      (∃ h ∈ latestHistory hist, keyMatch s h = true ∧
        ∃ d1 d2, s.data = some d1 ∧ h.data = some d2 ∧ d1 ≠ d2)
  · -- s was appended by the first merge
    have hrS : HistoryRow.mk s.id s.data now1 s.tenant_id ∈ app := by
      rw [happ]
      exact (mem_mergeInsertRows hist loading now1 _).mpr
        ⟨s, hs, ⟨d, hd⟩, hC, rfl⟩
    set rS : HistoryRow := HistoryRow.mk s.id s.data now1 s.tenant_id
      with hrSdef
    have happ_now : ∀ h ∈ app, h.updated = now1 := by
      intro h hh
      rcases happmem h hh with ⟨s', _, _, _, hEq⟩
      rw [hEq]
    have hrS_latest : rS ∈ latestHistory (hist ++ app) := by
      rw [mem_latestHistory]
      refine ⟨List.mem_append.mpr (Or.inr hrS), ?_⟩
      intro h2 h2mem _hkey
      rcases List.mem_append.mp h2mem with h2o | h2n
      · have := hts h2 h2o
        show ¬ now1 < h2.updated
        omega
      · rw [happ_now h2 h2n]
        show ¬ now1 < now1
        omega
    -- every latest key match in the merged table carries s.data
    have hall : ∀ h ∈ latestHistory (hist ++ app), keyMatch s h = true →
        h.data = some d := by
      intro h hlat hk
      rcases (mem_latestHistory (hist ++ app) h).mp hlat with ⟨hmem, hnolater⟩
      rcases List.mem_append.mp hmem with ho | hn
      · exfalso
        have hk' := (keyMatch_iff s h).mp hk
        have hnl : ¬ h.updated < rS.updated :=
          hnolater rS (List.mem_append.mpr (Or.inr hrS))
            (by simp [hrSdef, ← hk'.1, ← hk'.2])
        exact hnl (hts h ho)
      · rcases happmem h hn with ⟨s', hs', _, _, hEq⟩
        have hk' := (keyMatch_iff s h).mp hk
        have hid : s'.id = s.id := by rw [hEq] at hk'; exact hk'.2.symm
        have := hsame s' hs' hid
        subst this
        rw [hEq, hd]
    rcases hcond with hnone | ⟨h, hlat, hk, d1, d2, hd1, hd2, hne⟩
    · exact hnone ⟨rS, hrS_latest, (keyMatch_iff s rS).mpr (by simp [hrSdef])⟩
    · have := hall h hlat hk
      rw [hd1] at hd
      injection hd with hdd
      rw [this] at hd2
      injection hd2 with hdd2
      exact hne (hdd.trans hdd2)
  · -- s matched an identical latest row already before the first merge
    push_neg at hC
    rcases hC with ⟨⟨h0, h0lat, h0k⟩, hnodiff⟩
    -- no appended row carries s's id
    have happ_id : ∀ h ∈ app, h.id ≠ s.id := by
      intro h hh hid
      rcases happmem h hh with ⟨s', hs', hd', hcond', hEq⟩
      have : s'.id = s.id := by rw [hEq] at hid; exact hid
      have := hsame s' hs' this
      subst this
      rcases hcond' with hn' | hdiff'
      · exact hn' ⟨h0, h0lat, h0k⟩
      · rcases hdiff' with ⟨h', h'lat, h'k, e1, e2, he1, he2, hne⟩
        exact hne (hnodiff h' h'lat h'k e1 e2 he1 he2)
    -- latest-membership for rows with s's id transfers between the tables
    have htransfer : ∀ h, h.id = s.id →
        (h ∈ latestHistory (hist ++ app) ↔ h ∈ latestHistory hist) := by
      intro h hid
      rw [mem_latestHistory, mem_latestHistory]
      constructor
      · rintro ⟨hmem, hno⟩
        rcases List.mem_append.mp hmem with ho | hn
        · exact ⟨ho, fun h2 h2m hk2 =>
            hno h2 (List.mem_append.mpr (Or.inl h2m)) hk2⟩
        · exact absurd hid (happ_id h hn)
      · rintro ⟨hmem, hno⟩
        refine ⟨List.mem_append.mpr (Or.inl hmem), ?_⟩
        intro h2 h2m hk2
        rcases List.mem_append.mp h2m with h2o | h2n
        · exact hno h2 h2o hk2
        · exact absurd (hk2.2.trans hid) (happ_id h2 h2n)
    rcases hcond with hnone | ⟨h, hlat, hk, d1, d2, hd1, hd2, hne⟩
    · refine hnone ⟨h0, ?_, h0k⟩
      have h0id : h0.id = s.id := ((keyMatch_iff s h0).mp h0k).2.symm
      exact (htransfer h0 h0id).mpr h0lat
    · have hidh : h.id = s.id := ((keyMatch_iff s h).mp hk).2.symm
      have : h ∈ latestHistory hist := (htransfer h hidh).mp hlat
      exact hne (hnodiff h this hk d1 d2 hd1 hd2)

/-- C2 witness input check: a concrete idempotence run. -/
theorem merge_idempotent_witness :
    mergeInsertRows
      (mergeTable [{ id := "x", data := some "A", updated := 0,
                     tenant_id := 1 }]
        [{ id := "x", data := some "B", tenant_id := 1 },
         { id := "y", data := some "C", tenant_id := 1 }] 5)
      [{ id := "x", data := some "B", tenant_id := 1 },
       { id := "y", data := some "C", tenant_id := 1 }] 9 = [] :=
  merge_idempotent _ _ 5 9 (by decide) (by decide)

/-! ## JSON document model

A parsed JSON record as handled by `processJSONRecord` and `writeTuple` in
merge.cpp.  Numbers are modelled as integers (the claims under
verification do not depend on floating-point values). -/

inductive JsonValue where
  | null
  | bool (b : Bool)
  | num (n : Int)
  | str (s : String)
  | arr (xs : List JsonValue)
  | obj (ms : List (String × JsonValue))
  deriving Repr

mutual

theorem JsonValue.customInd (P : JsonValue → Prop)
    (h1 : P .null) (h2 : ∀ b, P (.bool b)) (h3 : ∀ n, P (.num n))
    (h4 : ∀ s, P (.str s))
    (h5 : ∀ xs, (∀ x ∈ xs, P x) → P (.arr xs))
    (h6 : ∀ ms, (∀ m ∈ ms, P m.2) → P (.obj ms)) :
    ∀ v, P v
  | .null => h1
  | .bool b => h2 b
  | .num n => h3 n
  | .str s => h4 s
  | .arr xs => h5 xs (JsonValue.customIndArr P h1 h2 h3 h4 h5 h6 xs)
  | .obj ms => h6 ms (JsonValue.customIndObj P h1 h2 h3 h4 h5 h6 ms)

theorem JsonValue.customIndArr (P : JsonValue → Prop)
    (h1 : P .null) (h2 : ∀ b, P (.bool b)) (h3 : ∀ n, P (.num n))
    (h4 : ∀ s, P (.str s))
    (h5 : ∀ xs, (∀ x ∈ xs, P x) → P (.arr xs))
    (h6 : ∀ ms, (∀ m ∈ ms, P m.2) → P (.obj ms)) :
    ∀ xs : List JsonValue, ∀ x ∈ xs, P x
  | y :: ys, x, hx => by
      rcases List.mem_cons.mp hx with h | h
      · exact h ▸ JsonValue.customInd P h1 h2 h3 h4 h5 h6 y
      · exact JsonValue.customIndArr P h1 h2 h3 h4 h5 h6 ys x h

theorem JsonValue.customIndObj (P : JsonValue → Prop)
    (h1 : P .null) (h2 : ∀ b, P (.bool b)) (h3 : ∀ n, P (.num n))
    (h4 : ∀ s, P (.str s))
    (h5 : ∀ xs, (∀ x ∈ xs, P x) → P (.arr xs))
    (h6 : ∀ ms, (∀ m ∈ ms, P m.2) → P (.obj ms)) :
    ∀ ms : List (String × JsonValue), ∀ m ∈ ms, P m.2
  | p :: ps, m, hm => by
      rcases List.mem_cons.mp hm with h | h
      · exact h ▸ JsonValue.customInd P h1 h2 h3 h4 h5 h6 p.2
      · exact JsonValue.customIndObj P h1 h2 h3 h4 h5 h6 ps m h

end

/-! ## Canonical member order (`NameComparator`, merge.cpp lines 104-115) -/

/-- `NameComparator::operator()` from merge.cpp: the member named `id`
sorts before every other member; all other pairs compare by `strcmp` on
the names (byte-wise, identical to lexicographic character order for the
ASCII names involved). -/
def nameCmp (s1 s2 : String) : Bool :=
  if s1 = "id" then true
  else if s2 = "id" then false
  else decide (s1 < s2)

/-- Insertion of one member into an already-sorted member list, realizing
the effect of `std::sort` with `NameComparator` (merge.cpp line 186):
any correct sort produces a permutation that is sorted with respect to the
comparator, which insertion sort computes. -/
def insertMember (x : String × JsonValue) :
    List (String × JsonValue) → List (String × JsonValue)
  | [] => [x]
  | y :: ys => if nameCmp x.1 y.1 then x :: y :: ys else y :: insertMember x ys

/-- The sorted member sequence produced by
`sort(node->MemberBegin(), node->MemberEnd(), NameComparator())`. -/
def sortMembers (ms : List (String × JsonValue)) :
    List (String × JsonValue) :=
  ms.foldr insertMember []

theorem insertMember_perm (x : String × JsonValue)
    (l : List (String × JsonValue)) :
    List.Perm (insertMember x l) (x :: l) := by
  induction l with
  | nil => simp [insertMember]
  | cons y ys ih =>
    unfold insertMember
    by_cases h : nameCmp x.1 y.1
    · simp [h]
    · simp only [h, if_neg, Bool.false_eq_true, if_false]
      exact (List.Perm.cons y ih).trans (List.Perm.swap x y ys)

theorem sortMembers_perm (ms : List (String × JsonValue)) :
    List.Perm (sortMembers ms) ms := by
  induction ms with
  | nil => simp [sortMembers]
  | cons m ms ih =>
    unfold sortMembers at *
    exact (insertMember_perm m (ms.foldr insertMember [])).trans
      (List.Perm.cons m ih)

theorem sizeOf_sortMembers (ms : List (String × JsonValue)) :
    sizeOf (sortMembers ms) = sizeOf ms :=
  (sortMembers_perm ms).sizeOf_eq_sizeOf

/-! ## Statistics collection and anonymization
(`processJSONRecord`, merge.cpp lines 129-199) -/

/-- Per-field type-signal counters (`Counts` in schema.h, used by
merge.cpp).  Numbers are modelled as integers, so every number observation
counts as an integer observation. -/
structure Counts where
  null : Nat := 0
  boolean : Nat := 0
  number : Nat := 0
  integer : Nat := 0
  floating : Nat := 0
  string : Nat := 0
  uuid : Nat := 0
  dateTime : Nat := 0
  deriving DecidableEq, Repr

/-- The statistics map (`map<string,Counts>`): a total function with
default-zero counters, matching `std::map::operator[]`. -/
def Stats : Type := String → Counts

/-- One `(*stats)[key]` update. -/
def bumpStat (stats : Stats) (key : String) (f : Counts → Counts) : Stats :=
  fun k => if k = key then f (stats k) else stats k

/-- External predicates used by `processJSONRecord`:
`possiblePersonalData` (anonymize.h) and `isUUID` (util.h) are declared in
headers outside this repository's sources and are modelled as opaque
boolean policies. -/
structure ProcPolicy where
  possiblePersonalData : String → Bool
  isUUID : String → Bool

def matchDigits : Nat → List Char → Option (List Char)
  | 0, cs => some cs
  | _ + 1, [] => none
  | n + 1, c :: cs => if c.isDigit then matchDigits n cs else none

def matchChar (ch : Char) : List Char → Option (List Char)
  | [] => none
  | c :: cs => if c = ch then some cs else none

/-- `looksLikeDateTime` (merge.cpp lines 117-126): full match of the
regular expression
`\d{4}-\d{2}-\d{2}T\d{2}:\d{2}:\d{2}((\.\d{3}\+\d{4})|(Z))`. -/
def looksLikeDateTime (s : String) : Bool :=
  let head :=
    (matchDigits 4 s.data).bind (matchChar '-') |>.bind (matchDigits 2)
      |>.bind (matchChar '-') |>.bind (matchDigits 2)
      |>.bind (matchChar 'T') |>.bind (matchDigits 2)
      |>.bind (matchChar ':') |>.bind (matchDigits 2)
      |>.bind (matchChar ':') |>.bind (matchDigits 2)
  match head with
  | none => false
  | some rest =>
    match (matchChar '.' rest).bind (matchDigits 3) |>.bind (matchChar '+')
        |>.bind (matchDigits 4) with
    | some [] => true
    | _ =>
      match matchChar 'Z' rest with
      | some [] => true
      | _ => false

mutual

/-- `processJSONRecord` (merge.cpp lines 129-199): one traversal that
collects type-signal statistics (pass 1) and anonymizes personal data
(pass 2).  Scalar leaves flagged by the personal-data policy are replaced
in place with type-preserving neutral values; object members are first put
into canonical order; array elements extend the path with their index,
object members with their name.  The in-place `json::Pointer::Set` of the
source is modelled as replacement of the current node. -/
def processJSONRecord (pol : ProcPolicy) (collectStats anonymizeTable : Bool)
    (path : String) (depth : Nat) (stats : Stats) :
    JsonValue → JsonValue × Stats
  | .null =>
      (.null,
        if collectStats && depth == 1 then
          bumpStat stats (path.drop 1) fun c => { c with null := c.null + 1 }
        else stats)
  | .bool b =>
      let v : JsonValue :=
        if anonymizeTable && pol.possiblePersonalData path then .bool false
        else .bool b
      (v,
        if collectStats && depth == 1 then
          bumpStat stats (path.drop 1) fun c =>
            { c with boolean := c.boolean + 1 }
        else stats)
  | .num n =>
      let v : JsonValue :=
        if anonymizeTable && pol.possiblePersonalData path then .num 0
        else .num n
      (v,
        if collectStats && depth == 1 then
          bumpStat stats (path.drop 1) fun c =>
            { c with number := c.number + 1, integer := c.integer + 1 }
        else stats)
  | .str s =>
      let v : String :=
        if anonymizeTable && pol.possiblePersonalData path then "" else s
      (.str v,
        if collectStats && depth == 1 then
          bumpStat stats (path.drop 1) fun c =>
            let c1 := { c with string := c.string + 1 }
            let c2 :=
              if pol.isUUID v then { c1 with uuid := c1.uuid + 1 } else c1
            if looksLikeDateTime v then
              { c2 with dateTime := c2.dateTime + 1 }
            else c2
        else stats)
  | .arr xs =>
      let r := processJSONArray pol collectStats anonymizeTable path depth
        stats 0 xs
      (.arr r.1, r.2)
  | .obj ms =>
      let r := processJSONMembers pol collectStats anonymizeTable path depth
        stats (sortMembers ms)
      (.obj r.1, r.2)
termination_by v => sizeOf v
decreasing_by
  all_goals simp_wf
  all_goals try rw [sizeOf_sortMembers]
  all_goals omega

/-- The array loop of `processJSONRecord` (merge.cpp lines 171-183). -/
def processJSONArray (pol : ProcPolicy) (collectStats anonymizeTable : Bool)
    (path : String) (depth : Nat) (stats : Stats) (x : Nat) :
    List JsonValue → List JsonValue × Stats
  | [] => ([], stats)
  | v :: vs =>
      let r := processJSONRecord pol collectStats anonymizeTable
        (path ++ "/" ++ toString x) (depth + 1) stats v
      let rs := processJSONArray pol collectStats anonymizeTable path depth
        r.2 (x + 1) vs
      (r.1 :: rs.1, rs.2)
termination_by l => sizeOf l
decreasing_by
  all_goals simp_wf
  all_goals omega

/-- The object-member loop of `processJSONRecord`
(merge.cpp lines 185-194), applied to the canonically sorted members. -/
def processJSONMembers (pol : ProcPolicy) (collectStats anonymizeTable : Bool)
    (path : String) (depth : Nat) (stats : Stats) :
    List (String × JsonValue) → List (String × JsonValue) × Stats
  | [] => ([], stats)
  | (k, v) :: ms =>
      let r := processJSONRecord pol collectStats anonymizeTable
        (path ++ "/" ++ k) (depth + 1) stats v
      let rs := processJSONMembers pol collectStats anonymizeTable path depth
        r.2 ms
      ((k, r.1) :: rs.1, rs.2)
termination_by l => sizeOf l
decreasing_by
  all_goals simp_wf
  all_goals omega

end

/-! ## Observations on records: field paths, leaves, container sizes -/

mutual

/-- The scalar leaves of a record together with their field paths, using
the same path construction as `processJSONRecord` (slash-delimited, array
elements indexed, object members named). -/
def jsonLeaves (path : String) : JsonValue → List (String × JsonValue)
  | .null => [(path, .null)]
  | .bool b => [(path, .bool b)]
  | .num n => [(path, .num n)]
  | .str s => [(path, .str s)]
  | .arr xs => jsonLeavesArr path 0 xs
  | .obj ms => jsonLeavesObj path ms

def jsonLeavesArr (path : String) (x : Nat) :
    List JsonValue → List (String × JsonValue)
  | [] => []
  | v :: vs =>
      jsonLeaves (path ++ "/" ++ toString x) v ++ jsonLeavesArr path (x + 1) vs

def jsonLeavesObj (path : String) :
    List (String × JsonValue) → List (String × JsonValue)
  | [] => []
  | (k, v) :: ms =>
      jsonLeaves (path ++ "/" ++ k) v ++ jsonLeavesObj path ms

end

mutual

/-- Every container position of a record with its size: array paths with
their element count, object paths with their member count. -/
def containerSizes (path : String) : JsonValue → List (String × Nat)
  | .null => []
  | .bool _ => []
  | .num _ => []
  | .str _ => []
  | .arr xs => (path, xs.length) :: containerSizesArr path 0 xs
  | .obj ms => (path, ms.length) :: containerSizesObj path ms

def containerSizesArr (path : String) (x : Nat) :
    List JsonValue → List (String × Nat)
  | [] => []
  | v :: vs =>
      containerSizes (path ++ "/" ++ toString x) v ++
        containerSizesArr path (x + 1) vs

def containerSizesObj (path : String) :
    List (String × JsonValue) → List (String × Nat)
  | [] => []
  | (k, v) :: ms =>
      containerSizes (path ++ "/" ++ k) v ++ containerSizesObj path ms

end

/-- The type-preserving neutral value of the Anonymizer:
boolean → false, numeric → 0, string → empty string. -/
def neutralJson : JsonValue → JsonValue
  | .bool _ => .bool false
  | .num _ => .num 0
  | .str _ => .str ""
  | v => v

/-- The effect the Anonymizer has on one leaf: a leaf whose path is
flagged by the personal-data policy is replaced by its neutral value. -/
def anonLeaf (ppd : String → Bool) (q : String × JsonValue) :
    String × JsonValue :=
  if ppd q.1 then (q.1, neutralJson q.2) else q

/-! ## Canonical order predicate (claim C6) -/

/-- `a` may precede `b` in canonical member order: if `b` is the literal
name `id` then so is `a`, and two names other than `id` are in
lexicographic order. -/
def canonBefore (a b : String) : Bool :=
  (if b = "id" then decide (a = "id") else true) &&
  (if a = "id" then true else if b = "id" then true else decide (a ≤ b))

def pairwiseB (r : α → α → Bool) : List α → Bool
  | [] => true
  | a :: l => l.all (r a) && pairwiseB r l

mutual

/-- Every object node of the value has its member names in canonical
order: the member literally named `id` first, all others lexicographically
by name. -/
def canonicallyOrdered : JsonValue → Bool
  | .null => true
  | .bool _ => true
  | .num _ => true
  | .str _ => true
  | .arr xs => canonicallyOrderedArr xs
  | .obj ms =>
      pairwiseB canonBefore (ms.map Prod.fst) && canonicallyOrderedObj ms

def canonicallyOrderedArr : List JsonValue → Bool
  | [] => true
  | v :: vs => canonicallyOrdered v && canonicallyOrderedArr vs

def canonicallyOrderedObj : List (String × JsonValue) → Bool
  | [] => true
  | (_, v) :: ms => canonicallyOrdered v && canonicallyOrderedObj ms

end

/-! ## Sortedness of the canonical member order -/

theorem canonBefore_eq (a b : String) :
    canonBefore a b = true ↔
      ((b = "id" → a = "id") ∧ (a ≠ "id" → b ≠ "id" → a ≤ b)) := by
  unfold canonBefore
  by_cases hb : b = "id" <;> by_cases ha : a = "id" <;> simp [ha, hb]

theorem canonBefore_of_nameCmp {a b : String} (h : nameCmp a b = true) :
    canonBefore a b = true := by
  rw [canonBefore_eq]
  unfold nameCmp at h
  by_cases ha : a = "id"
  · exact ⟨fun _ => ha, fun h' => absurd ha h'⟩
  · by_cases hb : b = "id"
    · simp [ha, hb] at h
    · simp only [ha, hb, if_false, decide_eq_true_eq] at h
      exact ⟨fun hbid => absurd hbid hb, fun _ _ => le_of_lt h⟩

theorem canonBefore_of_not_nameCmp {a b : String} (h : nameCmp a b = false) :
    canonBefore b a = true := by
  rw [canonBefore_eq]
  unfold nameCmp at h
  by_cases ha : a = "id"
  · simp [ha] at h
  · by_cases hb : b = "id"
    · exact ⟨fun _ => hb, fun h' => absurd hb h'⟩
    · simp only [ha, hb, if_false, decide_eq_false_iff_not] at h
      exact ⟨fun haid => absurd haid ha, fun _ _ => not_lt.mp h⟩

theorem canonBefore_trans_nameCmp {a b c : String} (h : nameCmp a b = true)
    (h2 : canonBefore b c = true) : canonBefore a c = true := by
  rw [canonBefore_eq] at h2 ⊢
  unfold nameCmp at h
  by_cases ha : a = "id"
  · exact ⟨fun _ => ha, fun h' => absurd ha h'⟩
  · by_cases hb : b = "id"
    · simp [ha, hb] at h
    · simp only [ha, hb, if_false, decide_eq_true_eq] at h
      refine ⟨fun hcid => absurd (h2.1 hcid) hb, fun _ hc => ?_⟩
      exact le_of_lt (lt_of_lt_of_le h (h2.2 hb hc))

theorem mem_map_fst_insertMember {z : String} (x : String × JsonValue)
    (l : List (String × JsonValue))
    (h : z ∈ (insertMember x l).map Prod.fst) :
    z = x.1 ∨ z ∈ l.map Prod.fst := by
  have := ((insertMember_perm x l).map Prod.fst).mem_iff.mp h
  simpa using this

theorem pairwiseB_insertMember (x : String × JsonValue)
    (l : List (String × JsonValue))
    (h : pairwiseB canonBefore (l.map Prod.fst) = true) :
    pairwiseB canonBefore ((insertMember x l).map Prod.fst) = true := by
  induction l with
  | nil => simp [insertMember, pairwiseB]
  | cons y ys ih =>
    simp only [List.map_cons, pairwiseB, Bool.and_eq_true,
      List.all_eq_true] at h
    rcases h with ⟨hyall, hys⟩
    unfold insertMember
    by_cases hc : nameCmp x.1 y.1
    · simp only [hc, if_true, List.map_cons, pairwiseB, Bool.and_eq_true,
        List.all_eq_true]
      refine ⟨fun z hz => ?_, ⟨hyall, hys⟩⟩
      rcases List.mem_cons.mp hz with hzy | hzys
      · exact hzy ▸ canonBefore_of_nameCmp hc
      · exact canonBefore_trans_nameCmp hc (hyall z hzys)
    · have hc' : nameCmp x.1 y.1 = false := by
        simpa using hc
      simp only [hc', Bool.false_eq_true, if_false, List.map_cons, pairwiseB,
        Bool.and_eq_true, List.all_eq_true]
      refine ⟨fun z hz => ?_, ih hys⟩
      rcases mem_map_fst_insertMember x ys hz with hzx | hzys
      · exact hzx ▸ canonBefore_of_not_nameCmp hc'
      · exact hyall z hzys

theorem pairwiseB_sortMembers (ms : List (String × JsonValue)) :
    pairwiseB canonBefore ((sortMembers ms).map Prod.fst) = true := by
  induction ms with
  | nil => simp [sortMembers, pairwiseB]
  | cons m ms ih =>
    unfold sortMembers at *
    exact pairwiseB_insertMember m _ ih

theorem processJSONMembers_map_fst (pol : ProcPolicy)
    (cs an : Bool) (path : String) (depth : Nat) (stats : Stats)
    (ms : List (String × JsonValue)) :
    ((processJSONMembers pol cs an path depth stats ms).1).map Prod.fst =
      ms.map Prod.fst := by
  induction ms generalizing stats with
  | nil => simp [processJSONMembers]
  | cons m ms ih =>
    obtain ⟨k, v⟩ := m
    simp [processJSONMembers, ih]

theorem canonicallyOrderedArr_processJSONArray (pol : ProcPolicy)
    (xs : List JsonValue)
    (hxs : ∀ x ∈ xs, ∀ cs an path depth stats,
      canonicallyOrdered (processJSONRecord pol cs an path depth stats x).1 =
        true) :
    ∀ cs an path depth stats i,
      canonicallyOrderedArr
        (processJSONArray pol cs an path depth stats i xs).1 = true := by
  induction xs with
  | nil => intro cs an path depth stats i; simp [processJSONArray,
      canonicallyOrderedArr]
  | cons v vs ih =>
    intro cs an path depth stats i
    simp only [processJSONArray, canonicallyOrderedArr, Bool.and_eq_true]
    exact ⟨hxs v (List.mem_cons_self v vs) cs an _ _ _,
      ih (fun x hx => hxs x (List.mem_cons_of_mem v hx)) cs an path depth _
        (i + 1)⟩

theorem canonicallyOrderedObj_processJSONMembers (pol : ProcPolicy)
    (ms : List (String × JsonValue))
    (hms : ∀ m ∈ ms, ∀ cs an path depth stats,
      canonicallyOrdered (processJSONRecord pol cs an path depth stats m.2).1 =
        true) :
    ∀ cs an path depth stats,
      canonicallyOrderedObj
        (processJSONMembers pol cs an path depth stats ms).1 = true := by
  induction ms with
  | nil => intro cs an path depth stats; simp [processJSONMembers,
      canonicallyOrderedObj]
  | cons m ms ih =>
    intro cs an path depth stats
    obtain ⟨k, v⟩ := m
    simp only [processJSONMembers, canonicallyOrderedObj, Bool.and_eq_true]
    exact ⟨hms (k, v) (List.mem_cons_self _ ms) cs an _ _ _,
      ih (fun m hm => hms m (List.mem_cons_of_mem _ hm)) cs an path depth _⟩

theorem canonicallyOrdered_processJSONRecord (pol : ProcPolicy)
    (v : JsonValue) :
    ∀ cs an path depth stats,
      canonicallyOrdered (processJSONRecord pol cs an path depth stats v).1 =
        true := by
  induction v using JsonValue.customInd with
  | h1 => intro cs an path depth stats; simp [processJSONRecord,
      canonicallyOrdered]
  | h2 b =>
    intro cs an path depth stats
    by_cases h : an && pol.possiblePersonalData path <;>
      simp [processJSONRecord, canonicallyOrdered, h]
  | h3 n =>
    intro cs an path depth stats
    by_cases h : an && pol.possiblePersonalData path <;>
      simp [processJSONRecord, canonicallyOrdered, h]
  | h4 s =>
    intro cs an path depth stats
    simp [processJSONRecord, canonicallyOrdered]
  | h5 xs ih =>
    intro cs an path depth stats
    simp only [processJSONRecord, canonicallyOrdered]
    exact canonicallyOrderedArr_processJSONArray pol xs ih cs an path depth
      stats 0
  | h6 ms ih =>
    intro cs an path depth stats
    simp only [processJSONRecord, canonicallyOrdered, Bool.and_eq_true]
    constructor
    · rw [processJSONMembers_map_fst]
      exact pairwiseB_sortMembers ms
    · refine canonicallyOrderedObj_processJSONMembers pol (sortMembers ms)
        ?_ cs an path depth stats
      intro m hm
      exact ih m ((sortMembers_perm ms).mem_iff.mp hm)

/-- C6: every JSON object node visited by `processJSONRecord` has its
sibling members put into the canonical order in which the member literally
named `id` comes first and all other members follow in lexicographic order
by name; the sorted sequence is a permutation of the original members. -/
theorem object_members_canonical_order (pol : ProcPolicy) :
    (∀ cs an path depth stats v,
      canonicallyOrdered (processJSONRecord pol cs an path depth stats v).1 =
        true) ∧
    (∀ ms : List (String × JsonValue), List.Perm (sortMembers ms) ms) ∧
    (∀ ms : List (String × JsonValue),
      pairwiseB canonBefore ((sortMembers ms).map Prod.fst) = true) :=
  ⟨fun cs an path depth stats v =>
      canonicallyOrdered_processJSONRecord pol v cs an path depth stats,
    sortMembers_perm, pairwiseB_sortMembers⟩

/-! ## Pass flags (JSONHandler::EndObject, merge.cpp lines 406-414) -/

/-- `collectStats = (pass == 1)`. -/
def collectStatsFlag (pass : Nat) : Bool := pass == 1

/-- The per-table anonymization flag: false during pass 1, and in pass 2
true exactly for the table named `user_users`
(`strcmp(tableSchema.tableName.c_str(), "user_users") == 0`). -/
def anonymizeTableFlag (pass : Nat) (tableName : String) : Bool :=
  if pass == 1 then false else tableName == "user_users"

/-! ## Shape and leaf preservation of the processing pass (claim C5) -/

theorem jsonLeavesObj_flatMap (path : String)
    (ms : List (String × JsonValue)) :
    jsonLeavesObj path ms =
      ms.flatMap fun m => jsonLeaves (path ++ "/" ++ m.1) m.2 := by
  induction ms with
  | nil => simp [jsonLeavesObj]
  | cons m ms ih => obtain ⟨k, v⟩ := m; simp [jsonLeavesObj, ih]

theorem containerSizesObj_flatMap (path : String)
    (ms : List (String × JsonValue)) :
    containerSizesObj path ms =
      ms.flatMap fun m => containerSizes (path ++ "/" ++ m.1) m.2 := by
  induction ms with
  | nil => simp [containerSizesObj]
  | cons m ms ih => obtain ⟨k, v⟩ := m; simp [containerSizesObj, ih]

theorem jsonLeavesObj_perm (path : String)
    {ms1 ms2 : List (String × JsonValue)} (h : List.Perm ms1 ms2) :
    List.Perm (jsonLeavesObj path ms1) (jsonLeavesObj path ms2) := by
  rw [jsonLeavesObj_flatMap, jsonLeavesObj_flatMap]
  exact h.flatMap_right _

theorem containerSizesObj_perm (path : String)
    {ms1 ms2 : List (String × JsonValue)} (h : List.Perm ms1 ms2) :
    List.Perm (containerSizesObj path ms1) (containerSizesObj path ms2) := by
  rw [containerSizesObj_flatMap, containerSizesObj_flatMap]
  exact h.flatMap_right _

theorem jsonLeaves_processJSONArray (pol : ProcPolicy) (cs an : Bool)
    (xs : List JsonValue)
    (hxs : ∀ x ∈ xs, ∀ path depth stats,
      List.Perm
        (jsonLeaves path (processJSONRecord pol cs an path depth stats x).1)
        ((jsonLeaves path x).map
          (anonLeaf fun p => an && pol.possiblePersonalData p))) :
    ∀ path depth stats i,
      List.Perm
        (jsonLeavesArr path i
          (processJSONArray pol cs an path depth stats i xs).1)
        ((jsonLeavesArr path i xs).map
          (anonLeaf fun p => an && pol.possiblePersonalData p)) := by
  induction xs with
  | nil => intro path depth stats i; simp [processJSONArray, jsonLeavesArr]
  | cons v vs ih =>
    intro path depth stats i
    simp only [processJSONArray, jsonLeavesArr, List.map_append]
    exact List.Perm.append
      (hxs v (List.mem_cons_self v vs) _ _ _)
      (ih (fun x hx => hxs x (List.mem_cons_of_mem v hx)) path depth _ (i + 1))

theorem jsonLeaves_processJSONMembers (pol : ProcPolicy) (cs an : Bool)
    (ms : List (String × JsonValue))
    (hms : ∀ m ∈ ms, ∀ path depth stats,
      List.Perm
        (jsonLeaves path (processJSONRecord pol cs an path depth stats m.2).1)
        ((jsonLeaves path m.2).map
          (anonLeaf fun p => an && pol.possiblePersonalData p))) :
    ∀ path depth stats,
      List.Perm
        (jsonLeavesObj path
          (processJSONMembers pol cs an path depth stats ms).1)
        ((jsonLeavesObj path ms).map
          (anonLeaf fun p => an && pol.possiblePersonalData p)) := by
  induction ms with
  | nil => intro path depth stats; simp [processJSONMembers, jsonLeavesObj]
  | cons m ms ih =>
    intro path depth stats
    obtain ⟨k, v⟩ := m
    simp only [processJSONMembers, jsonLeavesObj, List.map_append]
    exact List.Perm.append
      (hms (k, v) (List.mem_cons_self _ ms) _ _ _)
      (ih (fun m hm => hms m (List.mem_cons_of_mem _ hm)) path depth _)

theorem jsonLeaves_processJSONRecord (pol : ProcPolicy) (cs an : Bool)
    (v : JsonValue) :
    ∀ path depth stats,
      List.Perm
        (jsonLeaves path (processJSONRecord pol cs an path depth stats v).1)
        ((jsonLeaves path v).map
          (anonLeaf fun p => an && pol.possiblePersonalData p)) := by
  induction v using JsonValue.customInd with
  | h1 =>
    intro path depth stats
    by_cases h : (an && pol.possiblePersonalData path) = true <;>
      simp [processJSONRecord, jsonLeaves, anonLeaf, neutralJson, h]
  | h2 b =>
    intro path depth stats
    by_cases h : (an && pol.possiblePersonalData path) = true <;>
      simp [processJSONRecord, jsonLeaves, anonLeaf, neutralJson, h]
  | h3 n =>
    intro path depth stats
    by_cases h : (an && pol.possiblePersonalData path) = true <;>
      simp [processJSONRecord, jsonLeaves, anonLeaf, neutralJson, h]
  | h4 s =>
    intro path depth stats
    by_cases h : (an && pol.possiblePersonalData path) = true <;>
      simp [processJSONRecord, jsonLeaves, anonLeaf, neutralJson, h]
  | h5 xs ih =>
    intro path depth stats
    simp only [processJSONRecord, jsonLeaves]
    exact jsonLeaves_processJSONArray pol cs an xs ih path depth stats 0
  | h6 ms ih =>
    intro path depth stats
    simp only [processJSONRecord, jsonLeaves]
    refine List.Perm.trans
      (jsonLeaves_processJSONMembers pol cs an (sortMembers ms)
        (fun m hm => ih m ((sortMembers_perm ms).mem_iff.mp hm))
        path depth stats) ?_
    exact (jsonLeavesObj_perm path (sortMembers_perm ms)).map _

theorem containerSizes_processJSONArray (pol : ProcPolicy) (cs an : Bool)
    (xs : List JsonValue)
    (hxs : ∀ x ∈ xs, ∀ path depth stats,
      List.Perm
        (containerSizes path
          (processJSONRecord pol cs an path depth stats x).1)
        (containerSizes path x)) :
    ∀ path depth stats i,
      List.Perm
        (containerSizesArr path i
          (processJSONArray pol cs an path depth stats i xs).1)
        (containerSizesArr path i xs) := by
  induction xs with
  | nil => intro path depth stats i; simp [processJSONArray,
      containerSizesArr]
  | cons v vs ih =>
    intro path depth stats i
    simp only [processJSONArray, containerSizesArr]
    exact List.Perm.append
      (hxs v (List.mem_cons_self v vs) _ _ _)
      (ih (fun x hx => hxs x (List.mem_cons_of_mem v hx)) path depth _ (i + 1))

theorem containerSizes_processJSONMembers (pol : ProcPolicy) (cs an : Bool)
    (ms : List (String × JsonValue))
    (hms : ∀ m ∈ ms, ∀ path depth stats,
      List.Perm
        (containerSizes path
          (processJSONRecord pol cs an path depth stats m.2).1)
        (containerSizes path m.2)) :
    ∀ path depth stats,
      List.Perm
        (containerSizesObj path
          (processJSONMembers pol cs an path depth stats ms).1)
        (containerSizesObj path ms) := by
  induction ms with
  | nil => intro path depth stats; simp [processJSONMembers,
      containerSizesObj]
  | cons m ms ih =>
    intro path depth stats
    obtain ⟨k, v⟩ := m
    simp only [processJSONMembers, containerSizesObj]
    exact List.Perm.append
      (hms (k, v) (List.mem_cons_self _ ms) _ _ _)
      (ih (fun m hm => hms m (List.mem_cons_of_mem _ hm)) path depth _)

theorem processJSONMembers_length (pol : ProcPolicy) (cs an : Bool)
    (path : String) (depth : Nat) (stats : Stats)
    (ms : List (String × JsonValue)) :
    (processJSONMembers pol cs an path depth stats ms).1.length =
      ms.length := by
  have := processJSONMembers_map_fst pol cs an path depth stats ms
  have h2 := congrArg List.length this
  simpa using h2

theorem containerSizes_processJSONRecord (pol : ProcPolicy) (cs an : Bool)
    (v : JsonValue) :
    ∀ path depth stats,
      List.Perm
        (containerSizes path
          (processJSONRecord pol cs an path depth stats v).1)
        (containerSizes path v) := by
  induction v using JsonValue.customInd with
  | h1 =>
    intro path depth stats
    simp [processJSONRecord, containerSizes]
  | h2 b =>
    intro path depth stats
    by_cases h : (an && pol.possiblePersonalData path) = true <;>
      simp [processJSONRecord, containerSizes, h]
  | h3 n =>
    intro path depth stats
    by_cases h : (an && pol.possiblePersonalData path) = true <;>
      simp [processJSONRecord, containerSizes, h]
  | h4 s =>
    intro path depth stats
    simp [processJSONRecord, containerSizes]
  | h5 xs ih =>
    intro path depth stats
    simp only [processJSONRecord, containerSizes]
    have hlen : ∀ st i,
        (processJSONArray pol cs an path depth st i xs).1.length =
          xs.length := by
      clear ih
      induction xs with
      | nil => intro st i; simp [processJSONArray]
      | cons v vs ih2 => intro st i; simp [processJSONArray, ih2]
    rw [hlen stats 0]
    exact List.Perm.cons _
      (containerSizes_processJSONArray pol cs an xs ih path depth stats 0)
  | h6 ms ih =>
    intro path depth stats
    simp only [processJSONRecord, containerSizes]
    rw [processJSONMembers_length]
    rw [(sortMembers_perm ms).length_eq]
    refine List.Perm.cons _ ?_
    refine List.Perm.trans
      (containerSizes_processJSONMembers pol cs an (sortMembers ms)
        (fun m hm => ih m ((sortMembers_perm ms).mem_iff.mp hm))
        path depth stats) ?_
    exact containerSizesObj_perm path (sortMembers_perm ms)

theorem jsonLeaves_processJSONRecord_anon (pol : ProcPolicy) (cs : Bool)
    (path : String) (depth : Nat) (stats : Stats) (v : JsonValue) :
    List.Perm
      (jsonLeaves path (processJSONRecord pol cs true path depth stats v).1)
      ((jsonLeaves path v).map (anonLeaf pol.possiblePersonalData)) := by
  have h := jsonLeaves_processJSONRecord pol cs true v path depth stats
  have heq : (jsonLeaves path v).map
      (anonLeaf fun p => true && pol.possiblePersonalData p) =
      (jsonLeaves path v).map (anonLeaf pol.possiblePersonalData) := by
    simp [anonLeaf]
  rwa [heq] at h

theorem jsonLeaves_processJSONRecord_noanon (pol : ProcPolicy) (cs : Bool)
    (path : String) (depth : Nat) (stats : Stats) (v : JsonValue) :
    List.Perm
      (jsonLeaves path (processJSONRecord pol cs false path depth stats v).1)
      (jsonLeaves path v) := by
  have h := jsonLeaves_processJSONRecord pol cs false v path depth stats
  have heq : (jsonLeaves path v).map
      (anonLeaf fun p => false && pol.possiblePersonalData p) =
      jsonLeaves path v := by
    have hfun : (anonLeaf fun p => false && pol.possiblePersonalData p) =
        fun q => q := by
      funext q
      simp [anonLeaf]
    rw [hfun]
    simp
  rwa [heq] at h

/-- C5: the Anonymizer replaces exactly the flagged scalar leaves with
type-preserving neutral values and changes nothing else.  When the
anonymization flag is set, the processed record's leaves are the original
leaves with flagged leaves neutralized; when the flag is unset (in
particular during the analyze pass, whose flag is always false) every leaf
value is unchanged; and in all cases the set of field paths and every
container size (array length, object member count) is preserved. -/
theorem anonymizer_shape_preservation (pol : ProcPolicy) :
    (∀ cs path depth stats v,
      List.Perm
        (jsonLeaves path
          (processJSONRecord pol cs true path depth stats v).1)
        ((jsonLeaves path v).map (anonLeaf pol.possiblePersonalData))) ∧
    (∀ cs path depth stats v,
      List.Perm
        (jsonLeaves path
          (processJSONRecord pol cs false path depth stats v).1)
        (jsonLeaves path v)) ∧
    (∀ cs an path depth stats v,
      List.Perm
        (containerSizes path
          (processJSONRecord pol cs an path depth stats v).1)
        (containerSizes path v)) ∧
    (∀ tableName cs path depth stats v,
      List.Perm
        (jsonLeaves path
          (processJSONRecord pol cs (anonymizeTableFlag 1 tableName) path
            depth stats v).1)
        (jsonLeaves path v)) := by
  refine ⟨fun cs path depth stats v =>
      jsonLeaves_processJSONRecord_anon pol cs path depth stats v,
    fun cs path depth stats v =>
      jsonLeaves_processJSONRecord_noanon pol cs path depth stats v,
    fun cs an path depth stats v =>
      containerSizes_processJSONRecord pol cs an v path depth stats,
    fun tableName cs path depth stats v => ?_⟩
  have hflag : anonymizeTableFlag 1 tableName = false := rfl
  rw [hflag]
  exact jsonLeaves_processJSONRecord_noanon pol cs path depth stats v

/-- C10: the per-table anonymization flag computed by
`JSONHandler::EndObject` is true exactly when the pass is the load pass
(pass 2) and the staged table is named `user_users`; during the analyze
pass the flag is always false, so statistics are collected from records
whose leaf values are unchanged. -/
theorem anonymize_flag_characterization :
    ∀ pass tableName, (pass = 1 ∨ pass = 2) →
      ((anonymizeTableFlag pass tableName = true ↔
        (pass = 2 ∧ tableName = "user_users")) ∧
      (∀ t, anonymizeTableFlag 1 t = false) ∧
      (collectStatsFlag pass = true ↔ pass = 1) ∧
      (∀ pol t cs path depth stats v,
        List.Perm
          (jsonLeaves path
            (processJSONRecord pol cs (anonymizeTableFlag 1 t) path depth
              stats v).1)
          (jsonLeaves path v))) := by
  intro pass tableName hp
  refine ⟨?_, fun t => rfl, ?_, ?_⟩
  · rcases hp with h1 | h2
    · subst h1
      simp [anonymizeTableFlag]
    · subst h2
      simp [anonymizeTableFlag]
  · rcases hp with h1 | h2 <;> subst_vars <;> simp [collectStatsFlag]
  · intro pol t cs path depth stats v
    have hflag : anonymizeTableFlag 1 t = false := rfl
    rw [hflag]
    exact jsonLeaves_processJSONRecord_noanon pol cs path depth stats v

/-- C10 witness: the flag evaluated at both passes for the `user_users`
table. -/
theorem anonymize_flag_characterization_witness :
    anonymizeTableFlag 2 "user_users" = true ∧
    anonymizeTableFlag 1 "user_users" = false :=
  ⟨((anonymize_flag_characterization 2 "user_users" (Or.inr rfl)).1).mpr
      ⟨rfl, rfl⟩,
    (anonymize_flag_characterization 2 "user_users" (Or.inr rfl)).2.1
      "user_users"⟩

/-! ## Row Encoder (`writeTuple`, merge.cpp lines 282-386) -/

/-- Modelled from the spec: `DBType::encodeStringConst` (declared in
dbtype.h, outside this repository's sources).  Per the spec, string
encoding "must escape any character requiring SQL-string escaping and must
enforce a maximum encoded length (65535 bytes)", the limit applying to the
encoded text; the escape of the SQL quote character is doubling, all other
characters pass through unchanged. -/
def sqlEscapeChar (c : Char) : List Char :=
  if c = '\'' then ['\'', '\''] else [c]

def sqlEncode (s : String) : String :=
  String.mk (s.data.flatMap sqlEscapeChar)

/-- The length-limit check applied by `writeTuple` to every encoded
varchar/timestamptz value (merge.cpp lines 338-350): an encoded value of
65535 bytes or more is replaced wholesale by the SQL NULL literal, and the
second component records that a warning was logged. -/
def encodeLimitedString (enc : String → String) (v : String) :
    String × Bool :=
  let s := enc v
  if s.length ≥ 65535 then ("NULL", true) else (s, false)

/-- Modelled from the spec: the JSON string escaping of the rapidjson
writers (outside this repository's sources): quote and backslash are
escaped, other characters pass through. -/
def jsonEscapeChar (c : Char) : List Char :=
  if c = '"' then ['\\', '"']
  else if c = '\\' then ['\\', '\\']
  else [c]

def jsonEscape (s : String) : String :=
  String.mk (s.data.flatMap jsonEscapeChar)

def spacesStr (n : Nat) : String := String.mk (List.replicate n ' ')

mutual

/-- Modelled from the spec: compact (non-pretty) JSON serialization
(`json::Writer`, outside this repository's sources). -/
def compactPrint : JsonValue → String
  | .null => "null"
  | .bool b => if b then "true" else "false"
  | .num n => toString n
  | .str s => "\"" ++ jsonEscape s ++ "\""
  | .arr xs => "[" ++ compactPrintList xs ++ "]"
  | .obj ms => "\x7b" ++ compactPrintMembers ms ++ "\x7d"

def compactPrintList : List JsonValue → String
  | [] => ""
  | [x] => compactPrint x
  | x :: y :: xs => compactPrint x ++ "," ++ compactPrintList (y :: xs)

def compactPrintMembers : List (String × JsonValue) → String
  | [] => ""
  | [(k, v)] => "\"" ++ jsonEscape k ++ "\":" ++ compactPrint v
  | (k, v) :: m :: ms =>
      "\"" ++ jsonEscape k ++ "\":" ++ compactPrint v ++ "," ++
        compactPrintMembers (m :: ms)

end

mutual

/-- Modelled from the spec: pretty-printed JSON serialization
(`json::PrettyWriter`, outside this repository's sources): each container
element on its own line, indented four spaces per nesting level. -/
def prettyPrintAux (ind : Nat) : JsonValue → String
  | .null => "null"
  | .bool b => if b then "true" else "false"
  | .num n => toString n
  | .str s => "\"" ++ jsonEscape s ++ "\""
  | .arr [] => "[]"
  | .arr (x :: xs) =>
      "[\n" ++ prettyPrintList (ind + 4) (x :: xs) ++ "\n" ++
        spacesStr ind ++ "]"
  | .obj [] => "\x7b\x7d"
  | .obj (m :: ms) =>
      "\x7b\n" ++ prettyPrintMembers (ind + 4) (m :: ms) ++ "\n" ++
        spacesStr ind ++ "\x7d"

def prettyPrintList (ind : Nat) : List JsonValue → String
  | [] => ""
  | [x] => spacesStr ind ++ prettyPrintAux ind x
  | x :: y :: xs =>
      spacesStr ind ++ prettyPrintAux ind x ++ ",\n" ++
        prettyPrintList ind (y :: xs)

def prettyPrintMembers (ind : Nat) : List (String × JsonValue) → String
  | [] => ""
  | [(k, v)] =>
      spacesStr ind ++ "\"" ++ jsonEscape k ++ "\": " ++ prettyPrintAux ind v
  | (k, v) :: m :: ms =>
      spacesStr ind ++ "\"" ++ jsonEscape k ++ "\": " ++
        prettyPrintAux ind v ++ ",\n" ++ prettyPrintMembers ind (m :: ms)

end

def prettyPrint (v : JsonValue) : String := prettyPrintAux 0 v

/-- The closed set of relational column types (schema.h). -/
inductive ColumnType where
  | bigint
  | boolean
  | numeric
  | id
  | timestamptz
  | varchar
  deriving DecidableEq, Repr

structure Column where
  columnName : String
  sourceColumnName : String
  columnType : ColumnType
  deriving DecidableEq, Repr

structure TableSchema where
  tableName : String
  columns : List Column
  deriving DecidableEq, Repr

/-- `doc.HasMember` / `doc[...]` of rapidjson: the first member with the
given name. -/
def lookupMember : List (String × JsonValue) → String → Option JsonValue
  | [], _ => none
  | (n, v) :: ms, k => if n = k then some v else lookupMember ms k

/-- `to_string(jsonValue.GetDouble())` for the numeric column case;
numbers are modelled as integers, printed with the six fixed decimals of
`std::to_string(double)`. -/
def doubleToString (n : Int) : String := toString n ++ ".000000"

/-- The per-column encoding of the `writeTuple` loop (merge.cpp lines
305-354): the `id` column is skipped; an absent or null source field
yields NULL (with an extra NULL for the surrogate-key companion of an
id-typed column); otherwise the value is encoded per column type — the
id case emits a surrogate key looked up with the EMPTY string as the
table-name component (`idmap->makeSK("", ...)`, merge.cpp line 333) and
then falls through to the string encoding.  The result is `none` when the
JSON value's type contradicts the column type (a rapidjson assertion
failure in the source); the Bool records whether the length-limit warning
was logged. -/
def columnSQL (idmap : String → String → String) (enc : String → String)
    (members : List (String × JsonValue)) (col : Column) :
    Option (String × Bool) :=
  if col.columnName = "id" then some ("", false)
  else
    match lookupMember members col.sourceColumnName with
    | none =>
        some ((if col.columnType = ColumnType.id then "NULL," else "") ++
          "NULL,", false)
    | some .null =>
        some ((if col.columnType = ColumnType.id then "NULL," else "") ++
          "NULL,", false)
    | some v =>
        match col.columnType, v with
        | .bigint, .num n => some (toString n ++ ",", false)
        | .boolean, .bool b =>
            some ((if b then "TRUE" else "FALSE") ++ ",", false)
        | .numeric, .num n => some (doubleToString n ++ ",", false)
        | .id, .str sv =>
            some (idmap "" sv ++ "," ++ (encodeLimitedString enc sv).1 ++ ",",
              (encodeLimitedString enc sv).2)
        | .timestamptz, .str sv =>
            some ((encodeLimitedString enc sv).1 ++ ",",
              (encodeLimitedString enc sv).2)
        | .varchar, .str sv =>
            some ((encodeLimitedString enc sv).1 ++ ",",
              (encodeLimitedString enc sv).2)
        | _, _ => none

/-- The whole column loop of `writeTuple`, concatenating the per-column
text and collecting the names of columns whose value was replaced by NULL
with a warning. -/
def columnsSQL (idmap : String → String → String) (enc : String → String)
    (members : List (String × JsonValue)) :
    List Column → Option (String × List String)
  | [] => some ("", [])
  | col :: cols =>
      match columnSQL idmap enc members col with
      | none => none
      | some (s, w) =>
          match columnsSQL idmap enc members cols with
          | none => none
          | some (rest, ws) =>
              some (s ++ rest, (if w then [col.columnName] else []) ++ ws)

/-- The trailing `data` field of `writeTuple` (merge.cpp lines 356-378):
the record is pretty-printed and encoded; if the encoded text exceeds
65535 bytes the compact serialization is tried; if that also exceeds the
limit, NULL is stored and a warning logged (the Bool). -/
def dataFieldSQL (enc : String → String) (doc : JsonValue) : String × Bool :=
  let data := enc (prettyPrint doc)
  if data.length > 65535 then
    let data2 := enc (compactPrint doc)
    if data2.length > 65535 then ("NULL", true) else (data2, false)
  else (data, false)

/-- `writeTuple` (merge.cpp lines 282-386): appends one parenthesized
tuple to the INSERT buffer.  Leading fields: the surrogate key for the
record's own id, looked up with the table name
(`idmap->makeSK(table.tableName, id, &sk)`, merge.cpp line 295), then the
encoded natural id.  Then the declared columns, then the serialized
record, then the constant tenant value 1.  Returns the new buffer, the
incremented record count and the warning-context list (warnings go to the
log sink in the source); `none` models the rapidjson assertion failure
when the document is not an object with a string `id` member. -/
def writeTuple (idmap : String → String → String) (enc : String → String)
    (table : TableSchema) (doc : JsonValue) (recordCount : Nat)
    (insertBuffer : String) : Option (String × Nat × List String) :=
  match doc with
  | .obj members =>
    match lookupMember members "id" with
    | some (.str rid) =>
      match columnsSQL idmap enc members table.columns with
      | none => none
      | some (colText, warns) =>
          let sk := idmap table.tableName rid
          let idenc := enc rid
          let dataf := dataFieldSQL enc doc
          some
            (insertBuffer ++ (if recordCount > 0 then "," else "") ++ "(" ++
              sk ++ "," ++ idenc ++ "," ++ colText ++ dataf.1 ++ ",1)",
             recordCount + 1,
             warns ++ (if dataf.2 then ["data"] else []))
    | _ => none
  | _ => none

/-! ## Staging Driver flushing (`JSONHandler`, merge.cpp lines 388-469) -/

/-- The fixed INSERT-buffer flush threshold
(`insertBuffer.length() > 10000000`, merge.cpp line 422). -/
def flushThreshold : Nat := 10000000

/-- `beginInserts` (merge.cpp lines 266-271). -/
def beginInserts (loadingTable : String) : String :=
  "INSERT INTO " ++ loadingTable ++ " VALUES "

/-- The mutable staging state of `JSONHandler` during the load pass:
the record count since the last flush, the accumulating INSERT buffer, and
the statements executed against the database so far. -/
structure LoadState where
  recordCount : Nat
  insertBuffer : String
  executed : List String
  deriving DecidableEq, Repr

/-- `endInserts` (merge.cpp lines 273-280): terminate the statement with
`;\n`, execute it, and clear the buffer. -/
def endInserts (st : LoadState) : LoadState :=
  { st with
    executed := st.executed ++ [st.insertBuffer ++ ";\n"],
    insertBuffer := "" }

/-- One record of the load pass (`JSONHandler::EndObject`, merge.cpp lines
419-430): if the accumulated buffer exceeds the threshold, flush it,
restart the INSERT statement and reset the record count to zero; then
write the record's tuple. -/
def loadRecordStep (idmap : String → String → String) (enc : String → String)
    (table : TableSchema) (loadingTable : String) (doc : JsonValue)
    (st : LoadState) : Option LoadState :=
  let st1 :=
    if st.insertBuffer.length > flushThreshold then
      { recordCount := 0,
        insertBuffer := beginInserts loadingTable,
        executed := st.executed ++ [st.insertBuffer ++ ";\n"] }
    else st
  match writeTuple idmap enc table doc st1.recordCount st1.insertBuffer with
  | none => none
  | some (buf, cnt, _) =>
      some { st1 with insertBuffer := buf, recordCount := cnt }

/-- End of table (`JSONHandler::EndArray`, merge.cpp lines 456-469): one
final flush exactly when at least one tuple remains unflushed. -/
def endTableFlush (st : LoadState) : LoadState :=
  if st.recordCount > 0 then endInserts st else st

/-! ## Length facts about the SQL string encoder -/

theorem string_mk_length (l : List Char) : (String.mk l).length = l.length :=
  rfl

theorem flatMap_sqlEscapeChar_length (l : List Char) :
    (l.flatMap sqlEscapeChar).length = l.length + l.count '\'' := by
  induction l with
  | nil => simp
  | cons c cs ih =>
    simp only [List.flatMap_cons, List.length_append, ih, List.count_cons]
    unfold sqlEscapeChar
    by_cases h : c = '\'' <;> simp [h] <;> omega

theorem sqlEncode_length (s : String) :
    (sqlEncode s).length = s.length + s.data.count '\'' := by
  show (String.mk (s.data.flatMap sqlEscapeChar)).length = _
  rw [string_mk_length, flatMap_sqlEscapeChar_length]
  rfl

theorem sqlEncode_mk_length (l : List Char) :
    (sqlEncode (String.mk l)).length = l.length + l.count '\'' := by
  show (String.mk (l.flatMap sqlEscapeChar)).length = _
  rw [string_mk_length, flatMap_sqlEscapeChar_length]

theorem sqlEncode_length_ge (s : String) :
    s.length ≤ (sqlEncode s).length := by
  rw [sqlEncode_length]
  omega

theorem flatMap_sqlEscapeChar_no_quote (l : List Char) (h : '\'' ∉ l) :
    l.flatMap sqlEscapeChar = l := by
  induction l with
  | nil => simp
  | cons c cs ih =>
    simp only [List.mem_cons, not_or] at h
    simp only [List.flatMap_cons, ih h.2]
    unfold sqlEscapeChar
    rw [if_neg (fun hc => h.1 hc.symm)]
    simp

theorem sqlEncode_of_no_quote (s : String) (h : '\'' ∉ s.data) :
    sqlEncode s = s := by
  show String.mk (s.data.flatMap sqlEscapeChar) = s
  rw [flatMap_sqlEscapeChar_no_quote s.data h]

theorem encodeLimitedString_eq_null {enc : String → String} {v : String}
    (h : (enc v).length ≥ 65535) :
    encodeLimitedString enc v = ("NULL", true) := by
  simp only [encodeLimitedString, if_pos h]

/-- C4 (amended): the length limit of the Row Encoder applies to the
encoded value.  Any value whose encoding reaches 65535 bytes — in
particular every value of 65535 or more raw bytes — is replaced wholesale
by the NULL literal with a warning; a 65534-byte value none of whose
characters requires escaping is encoded normally; the emitted field is
always either the full encoded value or NULL, never a truncation; and this
is exactly what `writeTuple` emits for a varchar column. -/
theorem varchar_length_limit (v : String) :
    ((sqlEncode v).length ≥ 65535 →
      encodeLimitedString sqlEncode v = ("NULL", true)) ∧
    (v.length = 65535 → encodeLimitedString sqlEncode v = ("NULL", true)) ∧
    (v.length = 65534 → '\'' ∉ v.data →
      encodeLimitedString sqlEncode v = (v, false)) ∧
    ((encodeLimitedString sqlEncode v).1 = sqlEncode v ∨
      (encodeLimitedString sqlEncode v).1 = "NULL") ∧
    (∀ idmap members col,
      col.columnName ≠ "id" → col.columnType = ColumnType.varchar →
      lookupMember members col.sourceColumnName = some (.str v) →
      columnSQL idmap sqlEncode members col =
        some ((encodeLimitedString sqlEncode v).1 ++ ",",
          (encodeLimitedString sqlEncode v).2)) := by
  refine ⟨?_, ?_, ?_, ?_, ?_⟩
  · intro h
    simp only [encodeLimitedString, if_pos h]
  · intro h
    have : (sqlEncode v).length ≥ 65535 := by
      have := sqlEncode_length_ge v
      omega
    simp only [encodeLimitedString, if_pos this]
  · intro hlen hq
    have henc : sqlEncode v = v := sqlEncode_of_no_quote v hq
    show (if (sqlEncode v).length ≥ 65535 then (("NULL" : String), true)
      else (sqlEncode v, false)) = (v, false)
    rw [henc, if_neg (show ¬ v.length ≥ 65535 by omega)]
  · unfold encodeLimitedString
    by_cases h : (sqlEncode v).length ≥ 65535 <;> simp [h]
  · intro idmap members col hname htype hlook
    obtain ⟨cn, scn, ct⟩ := col
    simp only at hname htype
    subst htype
    simp only [columnSQL, if_neg hname, hlook]

/-- C4 witness inputs: the boundary lengths 65534 and 65535 on plain
values. -/
theorem varchar_length_limit_witness :
    encodeLimitedString sqlEncode (String.mk (List.replicate 65534 'a')) =
      (String.mk (List.replicate 65534 'a'), false) ∧
    encodeLimitedString sqlEncode (String.mk (List.replicate 65535 'a')) =
      ("NULL", true) :=
  ⟨(varchar_length_limit (String.mk (List.replicate 65534 'a'))).2.2.1
      (by rw [string_mk_length, List.length_replicate])
      (by
        intro h
        rcases List.eq_of_mem_replicate h with h2
        exact absurd h2 (by decide)),
    (varchar_length_limit (String.mk (List.replicate 65535 'a'))).2.1
      (by rw [string_mk_length, List.length_replicate])⟩

/-- C4 counterexample: a 65534-byte value containing one SQL quote
character encodes to 65535 bytes and is therefore replaced by NULL with a
warning, refuting the claim that every 65534-byte value is encoded
normally. -/
theorem varchar_length_limit_counterexample :
    (String.mk (List.replicate 65533 'a' ++ ['\''])).length = 65534 ∧
    encodeLimitedString sqlEncode
      (String.mk (List.replicate 65533 'a' ++ ['\''])) = ("NULL", true) := by
  constructor
  · rw [string_mk_length, List.length_append, List.length_replicate]
    rfl
  · have hlen : (sqlEncode
        (String.mk (List.replicate 65533 'a' ++ ['\'']))).length = 65535 := by
      rw [sqlEncode_mk_length, List.length_append, List.length_replicate,
        List.count_append, List.count_replicate]
      decide
    exact encodeLimitedString_eq_null (by omega)

/-! ## The data-field fallback (claim C8) -/

theorem spacesStr_length (n : Nat) : (spacesStr n).length = n := by
  rw [spacesStr, string_mk_length, List.length_replicate]

/-- A deeply nested array record: pretty-printing grows quadratically with
the depth while compact printing stays linear. -/
def deepArray : Nat → JsonValue
  | 0 => .num 1
  | d + 1 => .arr [deepArray d]

theorem compactPrint_deepArray_length (d : Nat) :
    (compactPrint (deepArray d)).length = 2 * d + 1 := by
  induction d with
  | zero => rfl
  | succ d ih =>
    have h1 : compactPrint (deepArray (d + 1)) =
        "[" ++ compactPrint (deepArray d) ++ "]" := rfl
    rw [h1, String.length_append, String.length_append, ih]
    show 1 + (2 * d + 1) + 1 = 2 * (d + 1) + 1
    omega

theorem prettyPrintAux_deepArray_length (d : Nat) :
    ∀ k, (prettyPrintAux k (deepArray d)).length =
      4 * d * d + (2 * k + 4) * d + 1 := by
  induction d with
  | zero => intro k; rfl
  | succ d ih =>
    intro k
    have h1 : prettyPrintAux k (deepArray (d + 1)) =
        "[\n" ++ (spacesStr (k + 4) ++ prettyPrintAux (k + 4) (deepArray d)) ++
          "\n" ++ spacesStr k ++ "]" := rfl
    rw [h1, String.length_append, String.length_append, String.length_append,
      String.length_append, String.length_append, ih (k + 4),
      spacesStr_length, spacesStr_length]
    show 2 + (k + 4 + (4 * d * d + (2 * (k + 4) + 4) * d + 1)) + 1 + k + 1 =
      4 * (d + 1) * (d + 1) + (2 * k + 4) * (d + 1) + 1
    ring

theorem quote_not_mem_spacesStr (n : Nat) : '\'' ∉ (spacesStr n).data := by
  show '\'' ∉ List.replicate n ' '
  simp [List.mem_replicate]

theorem quote_not_mem_compact_deepArray (d : Nat) :
    '\'' ∉ (compactPrint (deepArray d)).data := by
  induction d with
  | zero => decide
  | succ d ih =>
    have h1 : compactPrint (deepArray (d + 1)) =
        "[" ++ compactPrint (deepArray d) ++ "]" := rfl
    rw [h1, String.data_append, String.data_append]
    intro h
    rcases List.mem_append.mp h with h2 | h2
    · rcases List.mem_append.mp h2 with h3 | h3
      · exact absurd h3 (by decide)
      · exact ih h3
    · exact absurd h2 (by decide)

theorem quote_not_mem_pretty_deepArray (d : Nat) :
    ∀ k, '\'' ∉ (prettyPrintAux k (deepArray d)).data := by
  induction d with
  | zero =>
    intro k
    have h0 : prettyPrintAux k (deepArray 0) = "1" := rfl
    rw [h0]
    decide
  | succ d ih =>
    intro k
    have h1 : prettyPrintAux k (deepArray (d + 1)) =
        "[\n" ++ (spacesStr (k + 4) ++ prettyPrintAux (k + 4) (deepArray d)) ++
          "\n" ++ spacesStr k ++ "]" := rfl
    rw [h1, String.data_append, String.data_append, String.data_append,
      String.data_append, String.data_append]
    intro h
    rcases List.mem_append.mp h with h2 | h2
    · rcases List.mem_append.mp h2 with h3 | h3
      · rcases List.mem_append.mp h3 with h4 | h4
        · rcases List.mem_append.mp h4 with h5 | h5
          · exact absurd h5 (by decide)
          · rcases List.mem_append.mp h5 with h6 | h6
            · exact quote_not_mem_spacesStr (k + 4) h6
            · exact ih (k + 4) h6
        · exact absurd h4 (by decide)
      · exact quote_not_mem_spacesStr k h3
    · exact absurd h2 (by decide)

/-- C8: the trailing data field of the Row Encoder.  If the encoded
pretty-printed serialization exceeds 65535 bytes, the compact
serialization is tried, and a record whose compact form is within the
limit is stored in compact form; if the compact form also exceeds the
limit the field becomes NULL with a warning; within the limit the pretty
form is stored; and `writeTuple` emits exactly this field before the
closing constant tenant value. -/
theorem data_field_compact_fallback (enc : String → String)
    (doc : JsonValue) :
    ((enc (prettyPrint doc)).length > 65535 →
      (enc (compactPrint doc)).length ≤ 65535 →
      dataFieldSQL enc doc = (enc (compactPrint doc), false)) ∧
    ((enc (prettyPrint doc)).length > 65535 →
      (enc (compactPrint doc)).length > 65535 →
      dataFieldSQL enc doc = ("NULL", true)) ∧
    ((enc (prettyPrint doc)).length ≤ 65535 →
      dataFieldSQL enc doc = (enc (prettyPrint doc), false)) ∧
    (∀ idmap table members rid colText warns recordCount insertBuffer,
      doc = JsonValue.obj members →
      lookupMember members "id" = some (.str rid) →
      columnsSQL idmap enc members table.columns = some (colText, warns) →
      writeTuple idmap enc table doc recordCount insertBuffer =
        some (insertBuffer ++ (if recordCount > 0 then "," else "") ++ "(" ++
          idmap table.tableName rid ++ "," ++ enc rid ++ "," ++ colText ++
          (dataFieldSQL enc doc).1 ++ ",1)",
          recordCount + 1,
          warns ++ (if (dataFieldSQL enc doc).2 then ["data"] else []))) := by
  refine ⟨?_, ?_, ?_, ?_⟩
  · intro h1 h2
    show (if (enc (prettyPrint doc)).length > 65535 then
        (if (enc (compactPrint doc)).length > 65535 then
          (("NULL" : String), true)
        else (enc (compactPrint doc), false))
      else (enc (prettyPrint doc), false)) = (enc (compactPrint doc), false)
    rw [if_pos h1, if_neg (by omega)]
  · intro h1 h2
    show (if (enc (prettyPrint doc)).length > 65535 then
        (if (enc (compactPrint doc)).length > 65535 then
          (("NULL" : String), true)
        else (enc (compactPrint doc), false))
      else (enc (prettyPrint doc), false)) = ("NULL", true)
    rw [if_pos h1, if_pos h2]
  · intro h1
    show (if (enc (prettyPrint doc)).length > 65535 then
        (if (enc (compactPrint doc)).length > 65535 then
          (("NULL" : String), true)
        else (enc (compactPrint doc), false))
      else (enc (prettyPrint doc), false)) = (enc (prettyPrint doc), false)
    rw [if_neg (by omega)]
  · intro idmap table members rid colText warns recordCount insertBuffer
      hdoc hlook hcols
    subst hdoc
    simp only [writeTuple, hlook, hcols]

/-- C8 witness input: a 128-deep nested array, whose encoded pretty form
has 66049 bytes and whose encoded compact form has 257 bytes. -/
theorem data_field_compact_fallback_witness :
    dataFieldSQL sqlEncode (deepArray 128) =
      (sqlEncode (compactPrint (deepArray 128)), false) :=
  (data_field_compact_fallback sqlEncode (deepArray 128)).1
    (by
      rw [show prettyPrint (deepArray 128) =
          prettyPrintAux 0 (deepArray 128) from rfl,
        sqlEncode_of_no_quote _ (quote_not_mem_pretty_deepArray 128 0),
        prettyPrintAux_deepArray_length 128 0]
      norm_num)
    (by
      rw [sqlEncode_of_no_quote _ (quote_not_mem_compact_deepArray 128),
        compactPrint_deepArray_length 128]
      norm_num)

/-! ## Surrogate-key lookup keying (claim C7) -/

/-- A probe identifier map distinguishing the table-name component of the
lookup key: the empty table name yields "7", any other yields "9". -/
def idmapProbe (t : String) (_naturalId : String) : String :=
  if t = "" then "7" else "9"

/-- C7 counterexample: for an id-typed reference column the Row Encoder
emits the surrogate key obtained with the EMPTY string as the table-name
component (`idmap->makeSK("", ...)`, merge.cpp line 333), not with the
staged table's name as the claim states: under `idmapProbe` the emitted
key is "7" where the claim predicts "9". -/
theorem sk_table_scope_counterexample :
    ¬ (columnSQL idmapProbe sqlEncode
        [("id", JsonValue.str "u1"), ("owner", JsonValue.str "r1")]
        ⟨"owner", "owner", ColumnType.id⟩ =
      some (idmapProbe "users" "r1" ++ "," ++
        (encodeLimitedString sqlEncode "r1").1 ++ ",",
        (encodeLimitedString sqlEncode "r1").2)) ∧
    columnSQL idmapProbe sqlEncode
      [("id", JsonValue.str "u1"), ("owner", JsonValue.str "r1")]
      ⟨"owner", "owner", ColumnType.id⟩ =
      some (idmapProbe "" "r1" ++ "," ++
        (encodeLimitedString sqlEncode "r1").1 ++ ",",
        (encodeLimitedString sqlEncode "r1").2) := by
  constructor
  · intro h
    have h7 : columnSQL idmapProbe sqlEncode
        [("id", JsonValue.str "u1"), ("owner", JsonValue.str "r1")]
        ⟨"owner", "owner", ColumnType.id⟩ = some ("7,r1,", false) := by
      decide
    rw [h7] at h
    have h9 : idmapProbe "users" "r1" ++ "," ++
        (encodeLimitedString sqlEncode "r1").1 ++ "," = "9,r1," := by
      decide
    rw [h9] at h
    have h2 : (encodeLimitedString sqlEncode "r1").2 = false := by decide
    rw [h2] at h
    exact absurd h (by decide)
  · decide

/-- C7 (amended): every surrogate-key lookup is keyed by a (table name,
natural id) pair, but with different table components: the leading
surrogate key for the record's own id uses the staged table's name
(merge.cpp line 295), while the surrogate key emitted for each id-typed
reference column uses the empty string as the table component
(merge.cpp line 333). -/
theorem sk_lookup_keying (idmap : String → String → String)
    (enc : String → String) :
    (∀ members (col : Column) sv,
      col.columnName ≠ "id" → col.columnType = ColumnType.id →
      lookupMember members col.sourceColumnName = some (.str sv) →
      columnSQL idmap enc members col =
        some (idmap "" sv ++ "," ++ (encodeLimitedString enc sv).1 ++ ",",
          (encodeLimitedString enc sv).2)) ∧
    (∀ (table : TableSchema) members rid recordCount insertBuffer colText
        warns,
      lookupMember members "id" = some (.str rid) →
      columnsSQL idmap enc members table.columns = some (colText, warns) →
      writeTuple idmap enc table (.obj members) recordCount insertBuffer =
        some (insertBuffer ++ (if recordCount > 0 then "," else "") ++ "(" ++
          idmap table.tableName rid ++ "," ++ enc rid ++ "," ++ colText ++
          (dataFieldSQL enc (.obj members)).1 ++ ",1)",
          recordCount + 1,
          warns ++
            (if (dataFieldSQL enc (.obj members)).2 then ["data"]
              else []))) := by
  constructor
  · intro members col sv hname htype hlook
    obtain ⟨cn, scn, ct⟩ := col
    simp only at hname htype
    subst htype
    simp only [columnSQL, if_neg hname, hlook]
  · intro table members rid recordCount insertBuffer colText warns hlook hcols
    simp only [writeTuple, hlook, hcols]

/-- C7 witness input: a concrete table, record and probe map exercising
both lookups. -/
theorem sk_lookup_keying_witness :
    columnSQL idmapProbe sqlEncode
      [("id", JsonValue.str "u1"), ("owner", JsonValue.str "r1")]
      ⟨"owner", "owner", ColumnType.id⟩ =
      some (idmapProbe "" "r1" ++ "," ++
        (encodeLimitedString sqlEncode "r1").1 ++ ",",
        (encodeLimitedString sqlEncode "r1").2) :=
  (sk_lookup_keying idmapProbe sqlEncode).1
    [("id", JsonValue.str "u1"), ("owner", JsonValue.str "r1")]
    ⟨"owner", "owner", ColumnType.id⟩ "r1" (by decide) rfl rfl

/-! ## Staging Driver flush protocol (claim C9) -/

theorem writeTuple_count (idmap : String → String → String)
    (enc : String → String) (table : TableSchema) (doc : JsonValue)
    (rc : Nat) (buf : String) (b : String) (c : Nat) (w : List String)
    (h : writeTuple idmap enc table doc rc buf = some (b, c, w)) :
    c = rc + 1 := by
  unfold writeTuple at h
  split at h
  · split at h
    · split at h
      · simp at h
      · simp only [Option.some.injEq, Prod.mk.injEq] at h
        exact h.2.1.symm
    · simp at h
  · simp at h

/-- C9: the Staging Driver's flush protocol.  A record step first flushes
(executes and clears) the INSERT buffer exactly when its accumulated size
exceeds the 10,000,000-byte threshold, restarting the statement and
resetting the record count to zero before the new tuple is written;
otherwise the tuple is appended to the current buffer; the end-of-table
flush happens exactly when at least one tuple remains unflushed; and every
written tuple increments the record count by one. -/
theorem staging_flush_protocol (idmap : String → String → String)
    (enc : String → String) (table : TableSchema) (loadingTable : String)
    (doc : JsonValue) (st : LoadState) :
    (st.insertBuffer.length > flushThreshold →
      loadRecordStep idmap enc table loadingTable doc st =
        (writeTuple idmap enc table doc 0 (beginInserts loadingTable)).map
          fun r => LoadState.mk r.2.1 r.1
            (st.executed ++ [st.insertBuffer ++ ";\n"])) ∧
    (st.insertBuffer.length ≤ flushThreshold →
      loadRecordStep idmap enc table loadingTable doc st =
        (writeTuple idmap enc table doc st.recordCount st.insertBuffer).map
          fun r => LoadState.mk r.2.1 r.1 st.executed) ∧
    (st.recordCount > 0 →
      endTableFlush st =
        { recordCount := st.recordCount, insertBuffer := "",
          executed := st.executed ++ [st.insertBuffer ++ ";\n"] }) ∧
    (st.recordCount = 0 → endTableFlush st = st) ∧
    (∀ b c w,
      writeTuple idmap enc table doc st.recordCount st.insertBuffer =
        some (b, c, w) → c = st.recordCount + 1) := by
  refine ⟨?_, ?_, ?_, ?_, ?_⟩
  · intro h
    unfold loadRecordStep
    rw [if_pos h]
    cases hw : writeTuple idmap enc table doc 0 (beginInserts loadingTable)
      with
    | none => simp [hw]
    | some r => obtain ⟨b, c, w⟩ := r; simp [hw]
  · intro h
    unfold loadRecordStep
    rw [if_neg (by omega)]
    cases hw : writeTuple idmap enc table doc st.recordCount st.insertBuffer
      with
    | none => simp [hw]
    | some r => obtain ⟨b, c, w⟩ := r; simp [hw]
  · intro h
    unfold endTableFlush endInserts
    rw [if_pos h]
  · intro h
    unfold endTableFlush
    rw [if_neg (by omega)]
  · intro b c w h
    exact writeTuple_count idmap enc table doc st.recordCount
      st.insertBuffer b c w h

/-- C9 witness inputs: the end-of-table flush on an empty and a non-empty
state, and a record step below the threshold. -/
theorem staging_flush_protocol_witness :
    endTableFlush { recordCount := 0, insertBuffer := "", executed := [] } =
      { recordCount := 0, insertBuffer := "", executed := [] } ∧
    endTableFlush
        { recordCount := 1, insertBuffer := "INSERT INTO t VALUES (1)",
          executed := [] } =
      { recordCount := 1, insertBuffer := "",
        executed := ["INSERT INTO t VALUES (1);\n"] } ∧
    loadRecordStep idmapProbe sqlEncode ⟨"users", []⟩ "users_loading"
        (.obj [("id", .str "u1")])
        { recordCount := 5, insertBuffer := spacesStr 10000001,
          executed := [] } =
      (writeTuple idmapProbe sqlEncode ⟨"users", []⟩
          (.obj [("id", .str "u1")]) 0 (beginInserts "users_loading")).map
        fun r => LoadState.mk r.2.1 r.1 [spacesStr 10000001 ++ ";\n"] := by
  refine ⟨?_, ?_, ?_⟩
  · exact (staging_flush_protocol idmapProbe sqlEncode ⟨"users", []⟩
      "users_loading" (.obj [("id", .str "u1")])
      { recordCount := 0, insertBuffer := "", executed := [] }).2.2.2.1 rfl
  · exact (staging_flush_protocol idmapProbe sqlEncode ⟨"users", []⟩
      "users_loading" (.obj [("id", .str "u1")])
      { recordCount := 1, insertBuffer := "INSERT INTO t VALUES (1)",
        executed := [] }).2.2.1 (by decide)
  · exact (staging_flush_protocol idmapProbe sqlEncode ⟨"users", []⟩
      "users_loading" (.obj [("id", .str "u1")])
      { recordCount := 5, insertBuffer := spacesStr 10000001,
        executed := [] }).1
      (by rw [spacesStr_length]; norm_num [flushThreshold])
